import Mathlib

/-!
Verification of the investron filing ingestion-and-retrieval pipeline
(backend/app/services): filing_chunker.py, filing_parser.py,
vector_search.py, filing_indexer.py (lock protocol) and ai_service.py.

Modelling conventions:
* Python strings are lists of characters (`Txt`).
* The tiktoken cl100k_base tokenizer is modelled as the character
  tokenizer (encode = the character list, decode = its inverse), a
  faithful instance of the encode/decode interface the code relies on;
  `count_tokens` is therefore the character count.
* Fallible or possibly diverging loops take an explicit fuel argument and
  return `Option`; `none` for every fuel models non-termination.
* External collaborators (database rows, the completion stream, the tool
  executor) are parameters of the corresponding functions.
-/

abbrev Txt : Type := List Char

def ofStr (s : String) : Txt := s.data

/-- Whitespace as recognised by Python str.strip() and the regex class \s
(for the ASCII texts handled here). -/
def isSpaceChar (c : Char) : Bool :=
  c = ' ' || c = '\t' || c = '\n' || c = '\r' || c = '\x0b' || c = '\x0c'

/-- Python str.strip(): remove leading and trailing whitespace. -/
def stripTxt (s : Txt) : Txt :=
  ((s.dropWhile isSpaceChar).reverse.dropWhile isSpaceChar).reverse

/-- Does `p` occur at the front of `s`? (used for substring search). -/
def startsWithTxt : Txt → Txt → Bool
  | [], _ => true
  | _ :: _, [] => false
  | p :: ps, c :: cs => p = c && startsWithTxt ps cs

/-- Python `p in s` substring test. -/
def containsSub : Txt → Txt → Bool
  | s, p =>
    match s with
    | [] => startsWithTxt p []
    | _ :: rest => startsWithTxt p s || containsSub rest p

/-- Python s.replace(p, "") for a non-empty pattern `p`, with fuel
(`s.length` always suffices). -/
def replaceAllEmpty (p : Txt) : Nat → Txt → Txt
  | 0, _ => []
  | _ + 1, [] => []
  | fuel + 1, c :: cs =>
      if startsWithTxt p (c :: cs) then
        replaceAllEmpty p fuel ((c :: cs).drop p.length)
      else
        c :: replaceAllEmpty p fuel cs

/-- Python str.upper (ASCII). -/
def upperTxt (s : Txt) : Txt := s.map Char.toUpper

/-- Python str.lower (ASCII). -/
def lowerTxt (s : Txt) : Txt := s.map Char.toLower

/-- Decimal digits of a natural number, as text. -/
def natTxt (n : Nat) : Txt := (Nat.toDigits 10 n)

/-- First-biased option choice (used to state "last occurrence" lemmas). -/
def oelse : Option α → Option α → Option α
  | some x, _ => some x
  | none, b => b

/-- Association-list lookup by key equality on `Txt`. -/
def alookup (k : Txt) : List (Txt × β) → Option β
  | [] => none
  | (k', v) :: rest => if k' = k then some v else alookup k rest

/-- Lexicographic comparison of texts by code point (Python str <=). -/
def lexLe : Txt → Txt → Bool
  | [], _ => true
  | _ :: _, [] => false
  | a :: as', b :: bs => if a = b then lexLe as' bs else decide (a < b)

-- ===========================================================================
-- Section Parser data model (filing_parser.py, dataclasses lines 70-86)
-- ===========================================================================

structure ParsedSection where
  sectionId : Txt
  sectionName : Txt
  category : Txt
  textContent : Txt
  tables : List Txt
  tokenCount : Nat := 0
  deriving DecidableEq, Repr

structure ParsedFiling where
  filingType : Txt
  sections : List ParsedSection
  rawTextFallback : Txt := []
  parseQuality : Txt := ofStr "sectioned"
  deriving DecidableEq, Repr

-- ===========================================================================
-- Chunker (filing_chunker.py)
-- ===========================================================================

namespace FilingChunker

/-- count_tokens (line 34): length of the encoded token stream. -/
def countTokens (t : Txt) : Nat := t.length

/-- Chunk dataclass (lines 24-31). -/
structure Chunk where
  text : Txt
  tokenCount : Nat
  sectionName : Txt
  category : Txt
  isTable : Bool
  chunkIndex : Nat
  deriving DecidableEq, Repr

/-- Normalise a Python slice index (negative values wrap from the end,
out-of-range values clamp). -/
def pyIdx (n : Nat) (i : Int) : Nat :=
  if i < 0 then ((n : Int) + i).toNat else min i.toNat n

/-- Python slice l[a:b]. -/
def pySlice (l : List α) (a b : Int) : List α :=
  (l.take (pyIdx l.length b)).drop (pyIdx l.length a)

/-- The while-loop of _split_text_by_tokens (lines 123-132) with explicit
fuel; `start` is a Python int (it can become non-positive when
`overlapTokens ≥ maxTokens`, which is exactly the diverging case). -/
def splitLoop (tokens : Txt) (maxTokens overlapTokens : Nat) :
    Nat → Int → Option (List (Txt × Nat))
  | 0, start =>
      if start < (tokens.length : Int) then none else some []
  | fuel + 1, start =>
      if start < (tokens.length : Int) then
        let e : Int := min (start + (maxTokens : Int)) (tokens.length : Int)
        let chunkTokens := pySlice tokens start e
        let chunkText := stripTxt chunkTokens
        match splitLoop tokens maxTokens overlapTokens fuel
            (start + ((maxTokens : Int) - (overlapTokens : Int))) with
        | none => none
        | some rest =>
            some (if chunkText = [] then rest
                  else (chunkText, chunkTokens.length) :: rest)
      else some []

/-- _split_text_by_tokens (lines 105-134). -/
def splitTextByTokens (text : Txt) (maxTokens overlapTokens fuel : Nat) :
    Option (List (Txt × Nat)) :=
  let tokens := text
  let total := tokens.length
  if total ≤ maxTokens then some [(text, total)]
  else splitLoop tokens maxTokens overlapTokens fuel 0

/-- Text chunks of one section (lines 69-79): is_table = false, sequential
chunk_index starting at `idx`. -/
def mkTextChunks (s : ParsedSection) : List (Txt × Nat) → Nat → List Chunk
  | [], _ => []
  | (t, n) :: rest, idx =>
      ⟨t, n, s.sectionName, s.category, false, idx⟩ :: mkTextChunks s rest (idx + 1)

/-- Table chunks of one section (lines 82-93): one chunk per table,
is_table = true, token count of the whole table, never split. -/
def mkTableChunks (s : ParsedSection) : List Txt → Nat → List Chunk
  | [], _ => []
  | tbl :: rest, idx =>
      ⟨tbl, countTokens tbl, s.sectionName, s.category, true, idx⟩ ::
        mkTableChunks s rest (idx + 1)

/-- chunk_filing section loop (lines 65-93), threading the running
chunk_index across the whole filing. -/
def chunkGo (maxTokens overlapTokens fuel : Nat) :
    List ParsedSection → Nat → Option (List Chunk)
  | [], _ => some []
  | s :: rest, idx =>
      match (if stripTxt s.textContent = [] then some []
             else splitTextByTokens s.textContent maxTokens overlapTokens fuel) with
      | none => none
      | some ts =>
          match chunkGo maxTokens overlapTokens fuel rest
              (idx + (mkTextChunks s ts idx).length
                 + (mkTableChunks s s.tables
                      (idx + (mkTextChunks s ts idx).length)).length) with
          | none => none
          | some cs =>
              some (mkTextChunks s ts idx
                ++ mkTableChunks s s.tables (idx + (mkTextChunks s ts idx).length)
                ++ cs)

/-- chunk_filing (lines 39-102); max_tokens and overlap are explicit
(the Python defaults come from external configuration). -/
def chunkFiling (parsed : ParsedFiling) (maxTokens overlapTokens fuel : Nat) :
    Option (List Chunk) :=
  chunkGo maxTokens overlapTokens fuel parsed.sections 0

/-- The raw token windows of the splitting loop, before the
whitespace-strip and blank-window filter (analysis view of lines
123-132 for the in-spec configuration overlap < max). -/
def rawWinGo (tokens : Txt) (maxTokens overlapTokens : Nat) : Nat → Nat → List Txt
  | 0, _ => []
  | fuel + 1, start =>
      if start < tokens.length then
        ((tokens.drop start).take maxTokens) ::
          rawWinGo tokens maxTokens overlapTokens fuel
            (start + (maxTokens - overlapTokens))
      else []

def rawWindows (tokens : Txt) (maxTokens overlapTokens : Nat) : List Txt :=
  rawWinGo tokens maxTokens overlapTokens tokens.length 0

/-- The (text, token_count) pair emitted for a raw window: the stripped
decode, kept only when non-blank, paired with the pre-strip length. -/
def emitWindow (w : Txt) : Option (Txt × Nat) :=
  if stripTxt w = [] then none else some (stripTxt w, w.length)

/-- Concatenation of windows after the first, each with its leading
overlap dropped. -/
def assembleTail (overlapTokens : Nat) (ws : List Txt) : Txt :=
  (ws.map (List.drop overlapTokens)).flatten

/-- Round-trip reassembly: first window whole, later windows with the
leading overlap stripped. -/
def assembleWindows (overlapTokens : Nat) : List Txt → Txt
  | [] => []
  | w :: ws => w ++ assembleTail overlapTokens ws

/-- Reassembly applied to the emitted (stripped) chunk texts, as the
round-trip sentence of the spec reads on the function's actual output. -/
def assembleEmitted (overlapTokens : Nat) (cs : List (Txt × Nat)) : Txt :=
  assembleWindows overlapTokens (cs.map (·.1))

end FilingChunker

-- ===========================================================================
-- Section Parser algorithm (filing_parser.py, lines 95-289)
-- ===========================================================================

namespace FilingParser

/-- A match of _ITEM_PATTERN: start/end offsets and the captured item
code, already uppercased as in line 246 (group(1).upper()). -/
structure ItemMatch where
  start : Nat
  stop : Nat
  code : Txt
  deriving DecidableEq, Repr

def isDigitChar (c : Char) : Bool := '0' ≤ c && c ≤ '9'

/-- The optional item letter class [A-Ca-c]. -/
def isItemLetter (c : Char) : Bool :=
  ('A' ≤ c && c ≤ 'C') || ('a' ≤ c && c ≤ 'c')

/-- The non-whitespace part of the trailing class [\.\:\-\—\s]. -/
def isTrailPunct (c : Char) : Bool :=
  c = '.' || c = ':' || c = '-' || c = '—'

/-- Match `\s*(?:ITEM|Item)\s+` from position `p`; returns the position
right after the mandatory whitespace following the literal. -/
def matchHead (s : Txt) (p : Nat) : Option Nat :=
  let p1 := p + ((s.drop p).takeWhile isSpaceChar).length
  if startsWithTxt (ofStr "ITEM") (s.drop p1) ||
      startsWithTxt (ofStr "Item") (s.drop p1) then
    let p2 := p1 + 4
    let q := p2 + ((s.drop p2).takeWhile isSpaceChar).length
    if p2 < q then some q else none
  else none

/-- Match the trailing `\s*[\.\:\-\—\s]` from `pos`: greedy whitespace
with the one backtracking step a regex engine performs so the class can
consume the last whitespace character when nothing else follows. -/
def matchTrail (s : Txt) (pos : Nat) : Option Nat :=
  let k := ((s.drop pos).takeWhile isSpaceChar).length
  if k = 0 then
    match s[pos]? with
    | some c => if isTrailPunct c then some (pos + 1) else none
    | none => none
  else
    match s[pos + k]? with
    | some c => if isTrailPunct c then some (pos + k + 1) else some (pos + k)
    | none => some (pos + k)

/-- Match the optional `(?:\.\d{2})?` followed by the trail, preferring
the dotted variant and backtracking to the empty one if the remainder
fails; returns the extra captured text and the match end. -/
def matchDotTrail (s : Txt) (pos : Nat) : Option (Txt × Nat) :=
  let dotted : Option (Txt × Nat) :=
    match s[pos]?, s[pos + 1]?, s[pos + 2]? with
    | some c0, some c1, some c2 =>
        if c0 = '.' && isDigitChar c1 && isDigitChar c2 then
          (matchTrail s (pos + 3)).map (fun e => ([c0, c1, c2], e))
        else none
    | _, _, _ => none
  match dotted with
  | some r => some r
  | none => (matchTrail s pos).map (fun e => (([] : Txt), e))

/-- Match `(\d+(?:[A-Ca-c])?(?:\.\d{2})?)\s*[\.\:\-\—\s]` from `q`;
returns the captured group and the match end, preferring the variant
with the letter and backtracking if its remainder fails. -/
def matchNum (s : Txt) (q : Nat) : Option (Txt × Nat) :=
  let digits := (s.drop q).takeWhile isDigitChar
  if digits = [] then none
  else
    let r := q + digits.length
    let withLetter : Option (Txt × Nat) :=
      match s[r]? with
      | some c =>
          if isItemLetter c then
            (matchDotTrail s (r + 1)).map
              (fun p => (digits ++ [c] ++ p.1, p.2))
          else none
      | none => none
    match withLetter with
    | some res => some res
    | none => (matchDotTrail s r).map (fun p => (digits ++ p.1, p.2))

/-- Attempt _ITEM_PATTERN at scan position `i`, trying the `^` branch of
`(?:^|\n)` first (valid at offset 0 or right after a newline, re.MULTILINE)
and then the branch that consumes a newline. -/
def tryMatchAt (s : Txt) (i : Nat) : Option ItemMatch :=
  let body : Nat → Option (Txt × Nat) := fun p =>
    match matchHead s p with
    | none => none
    | some q => matchNum s q
  let caret : Option (Txt × Nat) :=
    if i = 0 || s[i - 1]? = some '\n' then body i else none
  let res : Option (Txt × Nat) :=
    match caret with
    | some r => some r
    | none => if s[i]? = some '\n' then body (i + 1) else none
  res.map (fun p => ⟨i, p.2, upperTxt p.1⟩)

/-- re.finditer: leftmost, non-overlapping matches, resuming after each
match end.  The pattern never matches the empty string, so
`max m.stop (i + 1)` equals `m.stop`; the `max` keeps the
length-based fuel bound obviously sufficient. -/
def scanFrom (s : Txt) : Nat → Nat → List ItemMatch
  | 0, _ => []
  | fuel + 1, i =>
      if i < s.length then
        match tryMatchAt s i with
        | some m => m :: scanFrom s fuel (max m.stop (i + 1))
        | none => scanFrom s fuel (i + 1)
      else []

def findMatches (s : Txt) : List ItemMatch := scanFrom s s.length 0

/-- Python dict assignment seen_items[k] = v: replace in place, keeping
the key's original insertion position, or append. -/
def upsert (k : Txt) (v : ItemMatch) :
    List (Txt × ItemMatch) → List (Txt × ItemMatch)
  | [] => [(k, v)]
  | (k', v') :: rest =>
      if k' = k then (k', v) :: rest else (k', v') :: upsert k v rest

/-- Lines 244-247: for each item code keep only the LAST match. -/
def dedupLast (ms : List ItemMatch) : List (Txt × ItemMatch) :=
  ms.foldl (fun acc m => upsert m.code m acc) []

/-- Stable insertion into a list sorted by match start offset. -/
def insertByStart (m : ItemMatch) : List ItemMatch → List ItemMatch
  | [] => [m]
  | x :: xs =>
      if x.start ≤ m.start then x :: insertByStart m xs else m :: x :: xs

/-- Line 250: sorted(seen_items.values(), key=lambda m: m.start()). -/
def sortByStart (ms : List ItemMatch) : List ItemMatch :=
  ms.foldl (fun acc m => insertByStart m acc) []

/-- The literal placeholder token "[[TABLE_PLACEHOLDER_{idx}]]". -/
def placeholderTxt (idx : Nat) : Txt :=
  ofStr "[[TABLE_PLACEHOLDER_" ++ natTxt idx ++ ofStr "]]"

/-- Lines 272-277: walk the tables dict in insertion (index) order,
collect each table whose placeholder occurs in the section text and
delete every occurrence of that placeholder. -/
def extractSectionTables : List (Nat × Txt) → Txt → List Txt × Txt
  | [], sectionText => ([], sectionText)
  | (idx, tableMd) :: rest, sectionText =>
      if containsSub sectionText (placeholderTxt idx) then
        let cleaned :=
          replaceAllEmpty (placeholderTxt idx) sectionText.length sectionText
        let next := extractSectionTables rest cleaned
        (tableMd :: next.1, next.2)
      else
        extractSectionTables rest sectionText

/-- Lines 252-289: build sections from the position-sorted unique
matches.  Each section spans from its header's match end to the next
unique match start (or the end of text); codes missing from the section
map and stripped bodies shorter than 50 characters are skipped. -/
def buildSections (text : Txt) (sectionMap : List (Txt × Txt × Txt))
    (tablesMd : List (Nat × Txt)) : List ItemMatch → List ParsedSection
  | [] => []
  | m :: rest =>
      let tail := buildSections text sectionMap tablesMd rest
      let stop :=
        match rest.head? with
        | some m2 => m2.start
        | none => text.length
      match alookup m.code sectionMap with
      | none => tail
      | some nameCat =>
          let sectionText := stripTxt ((text.take stop).drop m.stop)
          if sectionText.length < 50 then tail
          else
            let extracted := extractSectionTables tablesMd sectionText
            ⟨ofStr "item_" ++ lowerTxt m.code, nameCat.1, nameCat.2,
              stripTxt extracted.2, extracted.1, 0⟩ :: tail

/-- _detect_sections (lines 227-289).  The filing_type argument is part
of the signature but unused by the body, exactly as in the source. -/
def detectSections (text : Txt) (filingType : Txt)
    (sectionMap : List (Txt × Txt × Txt)) (tablesMd : List (Nat × Txt)) :
    List ParsedSection :=
  if sectionMap = [] then []
  else
    let _ := filingType
    let ms := findMatches text
    if ms = [] then []
    else
      buildSections text sectionMap tablesMd
        (sortByStart ((dedupLast ms).map (·.2)))

/-- parse_filing_html after its external HTML steps (lines 129-161):
given the cleaned text and the extracted tables dict, detect sections;
with fewer than two sections fall back to a single whole-document
section carrying every extracted table and the unmodified clean text. -/
def parseFilingCore (cleanText : Txt) (filingType : Txt)
    (sectionMap : List (Txt × Txt × Txt)) (tablesMd : List (Nat × Txt)) :
    ParsedFiling :=
  let sections := detectSections cleanText filingType sectionMap tablesMd
  if 2 ≤ sections.length then
    ⟨filingType, sections, [], ofStr "sectioned"⟩
  else
    ⟨filingType,
      [⟨ofStr "full_document", ofStr "Full Document", ofStr "general",
        cleanText, tablesMd.map (·.2), 0⟩],
      cleanText, ofStr "fallback"⟩

end FilingParser

-- ===========================================================================
-- Vector Search (vector_search.py, lines 104-135)
-- ===========================================================================

namespace VectorSearch

/-- One row of the nearest-neighbour SQL result, ordered by similarity
descending by the external passage store; nullable columns are Options
and the similarity float is carried through opaquely. -/
structure Row where
  chunkText : Txt
  filingType : Txt
  filingDate : Txt
  sectionName : Option Txt
  category : Option Txt
  topics : Option (List Txt)
  isTable : Bool
  similarity : Int
  tokenCount : Option Nat
  deriving DecidableEq, Repr

/-- SearchResult dataclass (lines 20-30). -/
structure SearchResult where
  chunkText : Txt
  filingType : Txt
  filingDate : Txt
  sectionName : Txt
  category : Txt
  topics : List Txt
  isTable : Bool
  similarity : Int
  tokenCount : Nat
  deriving DecidableEq, Repr

/-- Python `x or default` for a nullable text (None and "" are falsy). -/
def pyOrTxt (o : Option Txt) (dflt : Txt) : Txt :=
  match o with
  | none => dflt
  | some t => if t = [] then dflt else t

/-- Lines 113-123: the SearchResult built from a row (tokens is
row["token_count"] or 0). -/
def mkResult (r : Row) : SearchResult :=
  ⟨r.chunkText, r.filingType, r.filingDate,
    pyOrTxt r.sectionName (ofStr "Unknown Section"),
    pyOrTxt r.category (ofStr "general"),
    r.topics.getD [], r.isTable, r.similarity, r.tokenCount.getD 0⟩

/-- The accumulation loop of lines 104-127: `cum` is the running token
total, `cnt` the number of results taken so far.  A candidate that
would exceed the budget stops the loop unless nothing was taken yet;
after an append the loop stops once top_k results are collected. -/
def accumLoop (maxTokens topK : Nat) : List Row → Nat → Nat → List SearchResult
  | [], _, _ => []
  | r :: rest, cum, cnt =>
      if maxTokens < cum + r.tokenCount.getD 0 ∧ cnt ≠ 0 then []
      else
        if topK ≤ cnt + 1 then [mkResult r]
        else mkResult r ::
          accumLoop maxTokens topK rest (cum + r.tokenCount.getD 0) (cnt + 1)

/-- search_filing_chunks' post-query accumulation over the rows the
store returned (embedding generation and the SQL query are external). -/
def searchFilingChunks (rows : List Row) (maxTokens topK : Nat) :
    List SearchResult :=
  accumLoop maxTokens topK rows 0 0

def sumTokens (rs : List SearchResult) : Nat := (rs.map (·.tokenCount)).sum

end VectorSearch

-- ===========================================================================
-- Indexing Orchestrator lock protocol (filing_indexer.py, lines 32-90)
-- ===========================================================================

namespace FilingIndexer

/-- The two concurrent invocations of index_company_filings for the same
ticker. -/
inductive TaskId
  | A
  | B
  deriving DecidableEq, Repr

/-- Where one invocation stands.  `running k`: it holds the per-ticker
asyncio lock and will perform `k` more IndexState/passage mutations
inside _run_indexing_pipeline before releasing. -/
inductive Phase
  | start
  | running (k : Nat)
  | doneOk
  | conflict
  deriving DecidableEq, Repr

def Phase.isRunning : Phase → Bool
  | .running _ => true
  | _ => false

/-- Process state: the per-ticker lock plus both tasks' phases and their
counts of performed mutations (IndexState upserts / chunk writes). -/
structure Sys where
  locked : Bool
  phA : Phase
  phB : Phase
  mutA : Nat
  mutB : Nat
  deriving DecidableEq, Repr

def Sys.phase (s : Sys) : TaskId → Phase
  | .A => s.phA
  | .B => s.phB

def Sys.muts (s : Sys) : TaskId → Nat
  | .A => s.mutA
  | .B => s.mutB

/-- One cooperative step of a task (the event loop runs code between
awaits atomically).  From `start`, the step is lines 83-87: the
lock.locked() check plus the immediate return of the
"Indexing already in progress" result, or the (non-suspending)
acquisition of the free lock with `n` pipeline mutations ahead.  From
`running`, the step is one awaited pipeline mutation, or the release
of the lock when the pipeline body is done. -/
def stepTask (n : Nat) (ph : Phase) (locked : Bool) (mu : Nat) :
    Phase × Bool × Nat :=
  match ph with
  | .start =>
      if locked then (.conflict, locked, mu) else (.running n, true, mu)
  | .running (k + 1) => (.running k, locked, mu + 1)
  | .running 0 => (.doneOk, false, mu)
  | ph => (ph, locked, mu)

def step (n : Nat) (s : Sys) : TaskId → Sys
  | .A =>
      let r := stepTask n s.phA s.locked s.mutA
      ⟨r.2.1, r.1, s.phB, r.2.2, s.mutB⟩
  | .B =>
      let r := stepTask n s.phB s.locked s.mutB
      ⟨r.2.1, s.phA, r.1, s.mutA, r.2.2⟩

def init : Sys := ⟨false, .start, .start, 0, 0⟩

/-- Run an arbitrary cooperative interleaving of the two invocations. -/
def run (n : Nat) (sched : List TaskId) : Sys :=
  sched.foldl (step n) init

/-- The protocol invariant: the lock is held exactly when a task is in
the pipeline, never both at once; a conflicted or not-yet-started task
has mutated nothing; and a task only conflicts while the other holds
(or has since released) the lock. -/
def Inv (s : Sys) : Prop :=
  (s.locked = (s.phA.isRunning || s.phB.isRunning)) ∧
  ¬(s.phA.isRunning = true ∧ s.phB.isRunning = true) ∧
  (s.phA = .conflict → s.mutA = 0 ∧ (s.phB.isRunning = true ∨ s.phB = .doneOk)) ∧
  (s.phB = .conflict → s.mutB = 0 ∧ (s.phA.isRunning = true ∨ s.phA = .doneOk)) ∧
  (s.phA = .start → s.mutA = 0) ∧
  (s.phB = .start → s.mutB = 0)

end FilingIndexer

-- ===========================================================================
-- Agentic Retrieval Loop (ai_service.py, lines 58-190)
-- ===========================================================================

namespace AiService

/-- A streamed tool-call fragment (an entry of delta.tool_calls): the
call index plus possibly-empty id/name/arguments pieces (absent fields
are modelled by the empty text, matching Python truthiness). -/
structure TCDelta where
  index : Nat
  id : Txt
  name : Txt
  args : Txt
  deriving DecidableEq, Repr

/-- One streamed completion chunk (choices[0]): possibly-empty content
delta, tool-call fragments, optional finish_reason. -/
structure StreamChunk where
  content : Txt
  toolCalls : List TCDelta
  finishReason : Option Txt
  deriving DecidableEq, Repr

/-- A reassembled tool call (a value of tool_calls_by_index). -/
structure TCAcc where
  id : Txt
  name : Txt
  args : Txt
  deriving DecidableEq, Repr

/-- Events yielded to the chat transport. -/
inductive Event
  | token (content : Txt)
  | status (content : Txt)
  | done
  deriving DecidableEq, Repr

/-- Observable trace entries: yielded events, plus the executor
collaborator invocations (name, parsed arguments, substituted result)
in the order they are awaited. -/
inductive Trace
  | ev (e : Event)
  | call (name : Txt) (args : List (Txt × Txt)) (result : Txt)
  deriving DecidableEq, Repr

/-- Lines 123-130: merge one fragment into an accumulated call (id is
replaced when present, name and arguments are appended). -/
def mergeTC (tc : TCAcc) (d : TCDelta) : TCAcc :=
  ⟨if d.id = [] then tc.id else d.id, tc.name ++ d.name, tc.args ++ d.args⟩

def updateAt (i : Nat) (d : TCDelta) :
    List (Nat × TCAcc) → List (Nat × TCAcc)
  | [] => []
  | (j, tc) :: rest =>
      if j = i then (j, mergeTC tc d) :: rest else (j, tc) :: updateAt i d rest

/-- Lines 116-130: fold one fragment into tool_calls_by_index (an
insertion-ordered dict keyed by call index). -/
def applyDelta (acc : List (Nat × TCAcc)) (d : TCDelta) : List (Nat × TCAcc) :=
  if (acc.map (·.1)).contains d.index then updateAt d.index d acc
  else acc ++ [(d.index, mergeTC ⟨[], [], []⟩ d)]

/-- The streaming state of one iteration: yielded token events, the
accumulated tool calls, and the latest truthy finish_reason. -/
structure StreamState where
  events : List Event
  acc : List (Nat × TCAcc)
  finishReason : Option Txt
  deriving DecidableEq, Repr

/-- Lines 104-130: process one streamed chunk. -/
def processChunk (st : StreamState) (ch : StreamChunk) : StreamState :=
  let fr :=
    match ch.finishReason with
    | some f => if f = [] then st.finishReason else some f
    | none => st.finishReason
  ⟨(if ch.content = [] then st.events else st.events ++ [.token ch.content]),
    ch.toolCalls.foldl applyDelta st.acc, fr⟩

def processStream (chunks : List StreamChunk) : StreamState :=
  chunks.foldl processChunk ⟨[], [], none⟩

/-- Stable insertion into a list sorted by the id text. -/
def insertById (tc : TCAcc) : List TCAcc → List TCAcc
  | [] => [tc]
  | x :: xs =>
      if lexLe x.id tc.id then x :: insertById tc xs else tc :: x :: xs

/-- Line 147: sorted(tool_calls_by_index.values(), key=lambda t: t["id"])
— a stable sort by the id string of the values in first-seen index
order. -/
def sortById (l : List TCAcc) : List TCAcc :=
  l.foldl (fun acc tc => insertById tc acc) []

/-- Line 159: the human-readable status line for one tool call. -/
def statusText (fnName : Txt) (fnArgs : List (Txt × Txt)) : Txt :=
  ofStr "Searching filings: " ++
    (alookup (ofStr "query") fnArgs).getD fnName ++ ofStr "..."

/-- Line 166: the error string substituted as the tool result. -/
def errorText (fnName : Txt) (e : Txt) : Txt :=
  ofStr "Error executing " ++ fnName ++ ofStr ": " ++ e

/-- Lines 162-166: run the executor, substituting the error string on
failure instead of aborting the turn. -/
def callResult (exec : Txt → List (Txt × Txt) → Except Txt Txt)
    (fnName : Txt) (fnArgs : List (Txt × Txt)) : Txt :=
  match exec fnName fnArgs with
  | .ok r => r
  | .error e => errorText fnName e

/-- Lines 152-172 as one per-call block: the status event yielded before
the call, then the executor invocation with its substituted result
(json.loads with the {} fallback is the parseJson parameter). -/
def toolBlock (parseJson : Txt → Option (List (Txt × Txt)))
    (exec : Txt → List (Txt × Txt) → Except Txt Txt) (tc : TCAcc) : List Trace :=
  let fnArgs := (parseJson tc.args).getD []
  [Trace.ev (.status (statusText tc.name fnArgs)),
    Trace.call tc.name fnArgs (callResult exec tc.name fnArgs)]

/-- Lines 152-172: execute the (sorted) tool calls one after another. -/
def runTools (parseJson : Txt → Option (List (Txt × Txt)))
    (exec : Txt → List (Txt × Txt) → Except Txt Txt) :
    List TCAcc → List Trace
  | [] => []
  | tc :: rest =>
      let fnArgs := (parseJson tc.args).getD []
      Trace.ev (.status (statusText tc.name fnArgs)) ::
        Trace.call tc.name fnArgs (callResult exec tc.name fnArgs) ::
          runTools parseJson exec rest

/-- The loop's result: the full trace, the number of completion calls
made WITH the tool definition, and whether the final tool-free
completion call was made. -/
structure LoopOut where
  trace : List Trace
  toolRounds : Nat
  finalCall : Bool
  deriving Repr

/-- Lines 185-188: the final tool-free call only streams content. -/
def finalTokens (chunks : List StreamChunk) : List Trace :=
  chunks.filterMap
    (fun ch => if ch.content = [] then none else some (Trace.ev (.token ch.content)))

/-- stream_chat_response_with_tools (lines 89-190).  `oracle i` is the
chunk stream the completion provider returns for the i-th create()
call (the conversation bookkeeping is folded into this oracle);
`remaining` counts iterations of `for iteration in range(max_iterations)`
still to run, `ci` the create() calls made so far. -/
def loopGo (oracle : Nat → List StreamChunk)
    (parseJson : Txt → Option (List (Txt × Txt)))
    (exec : Txt → List (Txt × Txt) → Except Txt Txt) :
    Nat → Nat → List Trace → LoopOut
  | 0, ci, tr =>
      ⟨tr ++ finalTokens (oracle ci) ++ [Trace.ev .done], ci, true⟩
  | remaining + 1, ci, tr =>
      if (processStream (oracle ci)).finishReason ≠ some (ofStr "tool_calls") ∨
          (processStream (oracle ci)).acc = [] then
        ⟨tr ++ (processStream (oracle ci)).events.map Trace.ev ++ [Trace.ev .done],
          ci + 1, false⟩
      else
        loopGo oracle parseJson exec remaining (ci + 1)
          (tr ++ (processStream (oracle ci)).events.map Trace.ev ++
            runTools parseJson exec
              (sortById ((processStream (oracle ci)).acc.map (·.2))))

def agentLoop (oracle : Nat → List StreamChunk)
    (parseJson : Txt → Option (List (Txt × Txt)))
    (exec : Txt → List (Txt × Txt) → Except Txt Txt)
    (maxIterations : Nat) : LoopOut :=
  loopGo oracle parseJson exec maxIterations 0 []

def traceEvents : List Trace → List Event :=
  List.filterMap (fun t =>
    match t with
    | .ev e => some e
    | _ => none)

def callNames : List Trace → List Txt :=
  List.filterMap (fun t =>
    match t with
    | .call n _ _ => some n
    | _ => none)

def countDone (evs : List Event) : Nat :=
  (evs.filter (fun e => e = Event.done)).length

/-- A stream iteration that ends with finish_reason "tool_calls" and at
least one accumulated tool call — the loop continues on it. -/
def requestsTools (chunks : List StreamChunk) : Prop :=
  (processStream chunks).finishReason = some (ofStr "tool_calls") ∧
    (processStream chunks).acc ≠ []

end AiService

-- ===========================================================================
-- Concrete example inputs used by witnesses and counterexamples
-- ===========================================================================

/-- A small two-section parsed filing (one table in the first section). -/
def sampleFiling : ParsedFiling :=
  ⟨ofStr "10-K",
    [⟨ofStr "item_1", ofStr "Item 1 - Business", ofStr "business_overview",
      ofStr "hello", [ofStr "| a | b |"], 0⟩,
     ⟨ofStr "item_7", ofStr "Item 7 - MD&A", ofStr "financial_discussion",
      ofStr "world wide", [], 0⟩],
    [], ofStr "sectioned"⟩

/-- chunk_filing's output on `sampleFiling` with max_tokens 100, overlap 10. -/
def sampleChunks : List FilingChunker.Chunk :=
  [⟨ofStr "hello", 5, ofStr "Item 1 - Business", ofStr "business_overview", false, 0⟩,
   ⟨ofStr "| a | b |", 9, ofStr "Item 1 - Business", ofStr "business_overview", true, 1⟩,
   ⟨ofStr "world wide", 10, ofStr "Item 7 - MD&A", ofStr "financial_discussion", false, 2⟩]

/-- A filing with a 3-token section, used with max_tokens = overlap = 2
as the diverging configuration. -/
def divergingFiling : ParsedFiling :=
  ⟨ofStr "10-K",
    [⟨ofStr "item_1a", ofStr "Item 1A - Risk Factors", ofStr "risk_factors",
      ofStr "aaa", [], 0⟩],
    [], ofStr "sectioned"⟩

/-- The spec's TOC-disambiguation example: "Item 1A" appears once in a
contents line and once as the real header, then "Item 7" with content. -/
def c6Text : Txt :=
  ofStr "Item 1A Risk Factors 3\nItem 1A. Real risk factors body content comfortably over fifty chars.\nItem 7. Real MDA body content also comfortably over fifty chars."

/-- The spec's two-entry section map {"1A": Risk Factors, "7": MD&A}. -/
def c6Map : List (Txt × Txt × Txt) :=
  [(ofStr "1A", ofStr "Risk Factors", ofStr "risk_factors"),
   (ofStr "7", ofStr "MD&A", ofStr "financial_discussion")]

def c6Body1 : Txt :=
  ofStr "Real risk factors body content comfortably over fifty chars."

def c6Body2 : Txt :=
  ofStr "Real MDA body content also comfortably over fifty chars."

def c6Sections : List ParsedSection :=
  [⟨ofStr "item_1a", ofStr "Risk Factors", ofStr "risk_factors", c6Body1, [], 0⟩,
   ⟨ofStr "item_7", ofStr "MD&A", ofStr "financial_discussion", c6Body2, [], 0⟩]

/-- A cleaned text with a retained table placeholder and no item headers,
so section detection fails and the fallback branch runs. -/
def c10Clean : Txt :=
  ofStr "just some plain text with [[TABLE_PLACEHOLDER_0]] inside and no headers at all"

def c10Tables : List (Nat × Txt) := [(0, ofStr "| col a | col b |")]

/-- A search row whose token count (100) alone exceeds a budget of 10. -/
def sampleRow : VectorSearch.Row :=
  ⟨ofStr "big chunk", ofStr "10-K", ofStr "2024-01-01",
    none, none, none, false, 0, some 100⟩

/-- A stream that requests one tool call and signals finish_reason
"tool_calls". -/
def sampleToolStream : List AiService.StreamChunk :=
  [⟨[], [⟨0, ofStr "call_1", ofStr "search_filings", ofStr "args"⟩],
    some (ofStr "tool_calls")⟩]

/-- A stream that only streams content and stops. -/
def sampleStopStream : List AiService.StreamChunk :=
  [⟨ofStr "answer", [], some (ofStr "stop")⟩]

/-- A completion oracle that requests tools on the first two calls and
then answers. -/
def c4Oracle : Nat → List AiService.StreamChunk :=
  fun i => if i < 2 then sampleToolStream else sampleStopStream

def sampleParse : Txt → Option (List (Txt × Txt)) := fun _ => none

def sampleExec : Txt → List (Txt × Txt) → Except Txt Txt :=
  fun _ _ => .ok (ofStr "results")

/-- A stream whose tool-call indices and ids are ordered oppositely:
index 0 carries id "b" (name alpha), index 1 carries id "a" (name beta). -/
def c9Stream : List AiService.StreamChunk :=
  [⟨[], [⟨0, ofStr "b", ofStr "alpha", ofStr "x"⟩,
         ⟨1, ofStr "a", ofStr "beta", ofStr "y"⟩],
    some (ofStr "tool_calls")⟩]

def c9Oracle : Nat → List AiService.StreamChunk :=
  fun i => if i = 0 then c9Stream else sampleStopStream

-- ===========================================================================
-- Theorems
-- ===========================================================================

namespace FilingChunker

theorem range_concat3 (idx a b c : Nat) :
    List.range' idx a ++ List.range' (idx + a) b ++ List.range' (idx + a + b) c =
      List.range' idx (a + b + c) := by
  have e2 := List.range'_append (idx + a) b c 1
  have e1 := List.range'_append idx a (c + b) 1
  simp only [one_mul] at e1 e2
  rw [List.append_assoc, e2, e1]
  congr 1
  omega

theorem mkTextChunks_map_index (s : ParsedSection) :
    ∀ (ts : List (Txt × Nat)) (idx : Nat),
      (mkTextChunks s ts idx).map (·.chunkIndex) =
        List.range' idx (mkTextChunks s ts idx).length := by
  intro ts
  induction ts with
  | nil => intro idx; simp [mkTextChunks]
  | cons p rest ih =>
      intro idx
      simp [mkTextChunks, List.range'_succ, ih (idx + 1)]

theorem mkTableChunks_map_index (s : ParsedSection) :
    ∀ (tbls : List Txt) (idx : Nat),
      (mkTableChunks s tbls idx).map (·.chunkIndex) =
        List.range' idx (mkTableChunks s tbls idx).length := by
  intro tbls
  induction tbls with
  | nil => intro idx; simp [mkTableChunks]
  | cons t rest ih =>
      intro idx
      simp [mkTableChunks, List.range'_succ, ih (idx + 1)]

theorem chunkGo_map_index (maxT ov fuel : Nat) :
    ∀ (secs : List ParsedSection) (idx : Nat) (cs : List Chunk),
      chunkGo maxT ov fuel secs idx = some cs →
      cs.map (·.chunkIndex) = List.range' idx cs.length := by
  intro secs
  induction secs with
  | nil =>
      intro idx cs h
      simp [chunkGo] at h
      subst h
      simp
  | cons s rest ih =>
      intro idx cs h
      unfold chunkGo at h
      split at h
      · exact absurd h (by simp)
      · next ts hts =>
          split at h
          · exact absurd h (by simp)
          · next cs' hrec =>
              injection h with h
              subst h
              have h1 := mkTextChunks_map_index s ts idx
              have h2 := mkTableChunks_map_index s s.tables
                (idx + (mkTextChunks s ts idx).length)
              have h3 := ih _ _ hrec
              simp only [List.map_append, h1, h2, h3, List.length_append]
              exact range_concat3 idx _ _ _

/-- C1: for every ParsedFiling, the chunk_index values of chunk_filing's
output are exactly 0..N-1 in list order — contiguous, monotonically
increasing, with no gaps or repeats, text and table chunks interleaved
in encounter order across the whole document. -/
theorem chunk_filing_index_sequential
    (parsed : ParsedFiling) (maxT ov fuel : Nat) (cs : List Chunk)
    (h : chunkFiling parsed maxT ov fuel = some cs) :
    cs.map (·.chunkIndex) = List.range cs.length := by
  rw [List.range_eq_range']
  exact chunkGo_map_index maxT ov fuel parsed.sections 0 cs h

/-- Witness for C1 on `sampleFiling`. -/
theorem chunk_filing_index_sequential_witness :
    sampleChunks.map (·.chunkIndex) = List.range sampleChunks.length :=
  chunk_filing_index_sequential sampleFiling 100 10 20 sampleChunks (by decide)

theorem mkTextChunks_filter_isTable (s : ParsedSection) :
    ∀ (ts : List (Txt × Nat)) (idx : Nat),
      (mkTextChunks s ts idx).filter (·.isTable) = [] := by
  intro ts
  induction ts with
  | nil => intro idx; simp [mkTextChunks]
  | cons p rest ih => intro idx; simp [mkTextChunks, List.filter, ih (idx + 1)]

theorem mkTableChunks_filter_isTable (s : ParsedSection) :
    ∀ (tbls : List Txt) (idx : Nat),
      (mkTableChunks s tbls idx).filter (·.isTable) = mkTableChunks s tbls idx := by
  intro tbls
  induction tbls with
  | nil => intro idx; simp [mkTableChunks]
  | cons t rest ih => intro idx; simp [mkTableChunks, List.filter, ih (idx + 1)]

theorem mkTableChunks_map_text (s : ParsedSection) :
    ∀ (tbls : List Txt) (idx : Nat),
      (mkTableChunks s tbls idx).map (·.text) = tbls := by
  intro tbls
  induction tbls with
  | nil => intro idx; simp [mkTableChunks]
  | cons t rest ih => intro idx; simp [mkTableChunks, ih (idx + 1)]

theorem mkTextChunks_not_table (s : ParsedSection) :
    ∀ (ts : List (Txt × Nat)) (idx : Nat) (c : Chunk),
      c ∈ mkTextChunks s ts idx → c.isTable = false := by
  intro ts
  induction ts with
  | nil => intro idx c hc; simp [mkTextChunks] at hc
  | cons p rest ih =>
      intro idx c hc
      rcases List.mem_cons.mp hc with rfl | hc
      · rfl
      · exact ih (idx + 1) c hc

theorem mkTableChunks_count (s : ParsedSection) :
    ∀ (tbls : List Txt) (idx : Nat) (c : Chunk),
      c ∈ mkTableChunks s tbls idx → c.tokenCount = countTokens c.text := by
  intro tbls
  induction tbls with
  | nil => intro idx c hc; simp [mkTableChunks] at hc
  | cons t rest ih =>
      intro idx c hc
      rcases List.mem_cons.mp hc with rfl | hc
      · rfl
      · exact ih (idx + 1) c hc

theorem chunkGo_tables (maxT ov fuel : Nat) :
    ∀ (secs : List ParsedSection) (idx : Nat) (cs : List Chunk),
      chunkGo maxT ov fuel secs idx = some cs →
      ((cs.filter (·.isTable)).map (·.text) = (secs.map (·.tables)).flatten ∧
        ∀ c ∈ cs, c.isTable = true → c.tokenCount = countTokens c.text) := by
  intro secs
  induction secs with
  | nil =>
      intro idx cs h
      simp [chunkGo] at h
      subst h
      simp
  | cons s rest ih =>
      intro idx cs h
      unfold chunkGo at h
      split at h
      · exact absurd h (by simp)
      · next ts hts =>
          split at h
          · exact absurd h (by simp)
          · next cs' hrec =>
              injection h with h
              subst h
              obtain ⟨ih1, ih2⟩ := ih _ _ hrec
              constructor
              · simp only [List.filter_append, List.map_append,
                  mkTextChunks_filter_isTable, mkTableChunks_filter_isTable,
                  mkTableChunks_map_text, ih1, List.map_cons, List.flatten_cons,
                  List.nil_append]
              · intro c hc htab
                rcases List.mem_append.mp hc with hc | hc
                · rcases List.mem_append.mp hc with hc | hc
                  · exact absurd htab (by simp [mkTextChunks_not_table s ts idx c hc])
                  · exact mkTableChunks_count s s.tables _ c hc
                · exact ih2 c hc htab

/-- C7: chunk_filing emits every table of every section as exactly one
is_table chunk whose text is the whole rendered table (tables appear
once each, whole, in encounter order), and a table chunk's token count
is that of its entire text — tables are never split, whatever their
token count. -/
theorem chunk_filing_tables_whole
    (parsed : ParsedFiling) (maxT ov fuel : Nat) (cs : List Chunk)
    (h : chunkFiling parsed maxT ov fuel = some cs) :
    ((cs.filter (·.isTable)).map (·.text) =
        (parsed.sections.map (·.tables)).flatten ∧
      ∀ c ∈ cs, c.isTable = true → c.tokenCount = countTokens c.text) :=
  chunkGo_tables maxT ov fuel parsed.sections 0 cs h

/-- Witness for C7 on `sampleFiling`. -/
theorem chunk_filing_tables_whole_witness :
    (sampleChunks.filter (·.isTable)).map (·.text) =
        (sampleFiling.sections.map (·.tables)).flatten ∧
      ∀ c ∈ sampleChunks, c.isTable = true → c.tokenCount = countTokens c.text :=
  chunk_filing_tables_whole sampleFiling 100 10 20 sampleChunks (by decide)

theorem splitLoop_diverges (tokens : Txt) (maxT ov : Nat) (hov : maxT ≤ ov)
    (hlen : 0 < tokens.length) :
    ∀ (fuel : Nat) (start : Int), start ≤ 0 →
      splitLoop tokens maxT ov fuel start = none := by
  intro fuel
  induction fuel with
  | zero =>
      intro start hs
      unfold splitLoop
      rw [if_pos (by omega)]
  | succ f ih =>
      intro start hs
      unfold splitLoop
      rw [if_pos (by omega)]
      have hrec := ih (start + ((maxT : Int) - (ov : Int))) (by omega)
      simp only [hrec]

/-- C5 (code_bug exhibit): at max_tokens = 2, overlap = 2 on a 3-token
section, chunk_filing never returns for any fuel — there is no
fail-fast configuration error; the splitting loop makes no progress
(start advances by max_tokens − overlap = 0). -/
theorem chunk_filing_overlap_ge_max_diverges :
    ∀ fuel : Nat, chunkFiling divergingFiling 2 2 fuel = none := by
  intro fuel
  have hdiv := splitLoop_diverges (ofStr "aaa") 2 2 (le_refl 2) (by decide) fuel 0 (le_refl 0)
  have hsplit : splitTextByTokens (ofStr "aaa") 2 2 fuel = none := by
    unfold splitTextByTokens
    rw [if_neg (by decide)]
    exact hdiv
  show chunkGo 2 2 fuel divergingFiling.sections 0 = none
  unfold divergingFiling chunkGo
  rw [if_neg (by decide), hsplit]

theorem rawWinGo_fuel_invariant (tokens : Txt) (maxT ov : Nat) (hov : ov < maxT) :
    ∀ (f1 f2 start : Nat), tokens.length ≤ start + f1 → tokens.length ≤ start + f2 →
      rawWinGo tokens maxT ov f1 start = rawWinGo tokens maxT ov f2 start := by
  intro f1
  induction f1 with
  | zero =>
      intro f2 start h1 h2
      cases f2 with
      | zero => rfl
      | succ g =>
          show rawWinGo tokens maxT ov 0 start = rawWinGo tokens maxT ov (g + 1) start
          unfold rawWinGo
          rw [if_neg (by omega)]
  | succ f ih =>
      intro f2 start h1 h2
      by_cases hlt : start < tokens.length
      · cases f2 with
        | zero => omega
        | succ g =>
            unfold rawWinGo
            rw [if_pos hlt, if_pos hlt]
            rw [ih g (start + (maxT - ov)) (by omega) (by omega)]
      · cases f2 with
        | zero =>
            unfold rawWinGo
            rw [if_neg hlt]
        | succ g =>
            unfold rawWinGo
            rw [if_neg hlt, if_neg hlt]

theorem rawWinGo_assembleTail (tokens : Txt) (maxT ov : Nat) (hov : ov < maxT) :
    ∀ (fuel start : Nat), tokens.length ≤ start + fuel →
      assembleTail ov (rawWinGo tokens maxT ov fuel start) =
        tokens.drop (start + ov) := by
  intro fuel
  induction fuel with
  | zero =>
      intro start hfs
      unfold rawWinGo
      simp only [assembleTail, List.map_nil, List.flatten_nil]
      rw [List.drop_eq_nil_of_le (by omega)]
  | succ f ih =>
      intro start hfs
      unfold rawWinGo
      by_cases hlt : start < tokens.length
      · rw [if_pos hlt]
        simp only [assembleTail, List.map_cons, List.flatten_cons]
        have hrec := ih (start + (maxT - ov)) (by omega)
        simp only [assembleTail] at hrec
        rw [hrec]
        rw [List.drop_take, List.drop_drop]
        have e1 : start + (maxT - ov) + ov = start + maxT := by omega
        rw [e1]
        have e2 : tokens.drop (start + maxT) =
            List.drop (maxT - ov) (tokens.drop (start + ov)) := by
          rw [List.drop_drop]
          congr 1
          omega
        rw [e2, List.take_append_drop]
      · rw [if_neg hlt]
        simp only [assembleTail, List.map_nil, List.flatten_nil]
        rw [List.drop_eq_nil_of_le (by omega)]

theorem rawWindows_roundtrip (tokens : Txt) (maxT ov : Nat)
    (hov : ov < maxT) (hlen : maxT < tokens.length) :
    assembleWindows ov (rawWindows tokens maxT ov) = tokens := by
  unfold rawWindows
  obtain ⟨f, hf⟩ : ∃ f, tokens.length = f + 1 := ⟨tokens.length - 1, by omega⟩
  rw [hf]
  unfold rawWinGo
  rw [if_pos (by omega)]
  simp only [assembleWindows]
  rw [rawWinGo_assembleTail tokens maxT ov hov f (0 + (maxT - ov)) (by omega)]
  have e1 : 0 + (maxT - ov) + ov = maxT := by omega
  rw [e1, List.drop_zero, List.take_append_drop]

theorem rawWinGo_window_le (tokens : Txt) (maxT ov : Nat) :
    ∀ (fuel start : Nat) (w : Txt),
      w ∈ rawWinGo tokens maxT ov fuel start → w.length ≤ maxT := by
  intro fuel
  induction fuel with
  | zero => intro start w hw; simp [rawWinGo] at hw
  | succ f ih =>
      intro start w hw
      unfold rawWinGo at hw
      by_cases hlt : start < tokens.length
      · rw [if_pos hlt] at hw
        rcases List.mem_cons.mp hw with rfl | hw
        · rw [List.length_take]
          exact Nat.min_le_left _ _
        · exact ih _ w hw
      · rw [if_neg hlt] at hw
        simp at hw

theorem pySlice_natCast (l : List α) (start maxT : Nat) (h : start ≤ l.length) :
    pySlice l (start : Int) (min ((start : Int) + (maxT : Int)) (l.length : Int)) =
      (l.drop start).take maxT := by
  unfold pySlice pyIdx
  rw [if_neg (by omega), if_neg (by omega)]
  have e1 : ((start : Int)).toNat = start := by omega
  have e2 : (min ((start : Int) + (maxT : Int)) ((l.length : Int))).toNat =
      min (start + maxT) l.length := by omega
  rw [e1, e2]
  have e3 : min (min (start + maxT) l.length) l.length = min (start + maxT) l.length := by
    omega
  rw [e3]
  have e4 : l.take (min (start + maxT) l.length) = l.take (start + maxT) := by
    by_cases hc : start + maxT ≤ l.length
    · rw [min_eq_left hc]
    · rw [min_eq_right (by omega), List.take_length,
        List.take_of_length_le (by omega)]
  rw [e4, min_eq_left h, List.drop_take]
  congr 1
  omega

theorem splitLoop_eq_rawWinGo (tokens : Txt) (maxT ov : Nat) (hov : ov < maxT) :
    ∀ (fuel start : Nat), tokens.length ≤ start + fuel →
      splitLoop tokens maxT ov fuel (start : Int) =
        some ((rawWinGo tokens maxT ov fuel start).filterMap emitWindow) := by
  intro fuel
  induction fuel with
  | zero =>
      intro start hfs
      unfold splitLoop rawWinGo
      rw [if_neg (by omega)]
      rfl
  | succ f ih =>
      intro start hfs
      unfold splitLoop rawWinGo
      by_cases hlt : start < tokens.length
      · rw [if_pos (by omega), if_pos hlt]
        have hcast : (start : Int) + ((maxT : Int) - (ov : Int)) =
            ((start + (maxT - ov) : Nat) : Int) := by omega
        have hrec := ih (start + (maxT - ov)) (by omega)
        have hslice := pySlice_natCast tokens start maxT (by omega)
        simp only [hcast, hrec, hslice, List.filterMap_cons, emitWindow]
        by_cases hsw : stripTxt ((tokens.drop start).take maxT) = [] <;>
          simp [hsw]
      · rw [if_neg (by omega), if_neg hlt]
        rfl

theorem splitTextByTokens_eq_windows (text : Txt) (maxT ov fuel : Nat)
    (hov : ov < maxT) (hlen : maxT < text.length) (hfuel : text.length ≤ fuel) :
    splitTextByTokens text maxT ov fuel =
      some ((rawWindows text maxT ov).filterMap emitWindow) := by
  unfold splitTextByTokens rawWindows
  rw [if_neg (by omega)]
  have h1 := splitLoop_eq_rawWinGo text maxT ov hov fuel 0 (by omega)
  rw [show ((0 : Nat) : Int) = (0 : Int) from rfl] at h1
  rw [h1, rawWinGo_fuel_invariant text maxT ov hov fuel text.length 0
    (by omega) (by omega)]

/-- C8 (amended): for overlap < max_tokens and a text longer than
max_tokens, _split_text_by_tokens terminates and emits exactly the
whitespace-stripped decodes of the non-blank raw token windows with
their pre-strip token counts; every raw window (hence every emitted
token count) is at most max_tokens, and reassembling the RAW token
windows with the inter-window overlaps stripped reproduces the
original token stream.  (Reassembly from the emitted texts alone can
lose boundary whitespace — see the counterexample.) -/
theorem split_text_by_tokens_roundtrip_amended (text : Txt) (maxT ov fuel : Nat)
    (hov : ov < maxT) (hlen : maxT < text.length) (hfuel : text.length ≤ fuel) :
    (splitTextByTokens text maxT ov fuel =
        some ((rawWindows text maxT ov).filterMap emitWindow) ∧
      assembleWindows ov (rawWindows text maxT ov) = text ∧
      (∀ w ∈ rawWindows text maxT ov, w.length ≤ maxT) ∧
      ∀ c ∈ (rawWindows text maxT ov).filterMap emitWindow, c.2 ≤ maxT) := by
  refine ⟨splitTextByTokens_eq_windows text maxT ov fuel hov hlen hfuel,
    rawWindows_roundtrip text maxT ov hov hlen,
    fun w hw => rawWinGo_window_le text maxT ov _ _ w hw, ?_⟩
  intro c hc
  rcases List.mem_filterMap.mp hc with ⟨w, hw, hew⟩
  unfold emitWindow at hew
  by_cases hsw : stripTxt w = []
  · rw [if_pos hsw] at hew
    cases hew
  · rw [if_neg hsw] at hew
    injection hew with hew
    rw [← hew]
    exact rawWinGo_window_le text maxT ov _ _ w hw

/-- Witness for the amended C8 on "abcd", max_tokens 2, overlap 1. -/
theorem split_text_by_tokens_roundtrip_amended_witness :
    (splitTextByTokens (ofStr "abcd") 2 1 4 =
        some ((rawWindows (ofStr "abcd") 2 1).filterMap emitWindow) ∧
      assembleWindows 1 (rawWindows (ofStr "abcd") 2 1) = ofStr "abcd" ∧
      (∀ w ∈ rawWindows (ofStr "abcd") 2 1, w.length ≤ 2) ∧
      ∀ c ∈ (rawWindows (ofStr "abcd") 2 1).filterMap emitWindow, c.2 ≤ 2) :=
  split_text_by_tokens_roundtrip_amended (ofStr "abcd") 2 1 4
    (by decide) (by decide) (by decide)

/-- C8 counterexample: on the 3-token text "ab " with max_tokens 2,
overlap 1, the emitted chunks are [("ab", 2), ("b", 2)]; reassembling
the emitted texts with the overlap stripped yields "ab", not the
original token stream "ab " — str.strip() discards the trailing
whitespace token, so the round trip fails on the function's output as
the claim states it. -/
theorem split_text_by_tokens_roundtrip_counterexample :
    splitTextByTokens (ofStr "ab ") 2 1 3 =
        some [(ofStr "ab", 2), (ofStr "b", 2)] ∧
      assembleEmitted 1 [(ofStr "ab", 2), (ofStr "b", 2)] ≠ ofStr "ab " := by
  decide

end FilingChunker

namespace VectorSearch

theorem accumLoop_break (maxT topK : Nat) :
    ∀ (rows : List Row) (cum cnt : Nat), 1 ≤ cnt → maxT < cum →
      accumLoop maxT topK rows cum cnt = [] := by
  intro rows cum cnt h1 h2
  cases rows with
  | nil => rfl
  | cons r rest =>
      unfold accumLoop
      rw [if_pos ⟨by omega, by omega⟩]

theorem accumLoop_length (maxT topK : Nat) :
    ∀ (rows : List Row) (cum cnt : Nat), cnt < topK →
      (accumLoop maxT topK rows cum cnt).length ≤ topK - cnt := by
  intro rows
  induction rows with
  | nil => intro cum cnt h; simp [accumLoop]
  | cons r rest ih =>
      intro cum cnt h
      unfold accumLoop
      by_cases hbr : maxT < cum + r.tokenCount.getD 0 ∧ cnt ≠ 0
      · rw [if_pos hbr]
        simp
      · rw [if_neg hbr]
        by_cases hk : topK ≤ cnt + 1
        · rw [if_pos hk]
          simp
          omega
        · rw [if_neg hk]
          have := ih (cum + r.tokenCount.getD 0) (cnt + 1) (by omega)
          simp only [List.length_cons]
          omega

theorem accumLoop_budget (maxT topK : Nat) :
    ∀ (rows : List Row) (cum cnt : Nat), 1 ≤ cnt →
      cum + sumTokens (accumLoop maxT topK rows cum cnt) ≤ max maxT cum := by
  intro rows
  induction rows with
  | nil => intro cum cnt h; simp [accumLoop, sumTokens]
  | cons r rest ih =>
      intro cum cnt h
      unfold accumLoop
      by_cases hbr : maxT < cum + r.tokenCount.getD 0 ∧ cnt ≠ 0
      · rw [if_pos hbr]
        simp only [sumTokens, List.map_nil, List.sum_nil]
        omega
      · rw [if_neg hbr]
        have htok : cum + r.tokenCount.getD 0 ≤ maxT := by
          by_contra hc
          exact hbr ⟨by omega, by omega⟩
        have hmk : (mkResult r).tokenCount = r.tokenCount.getD 0 := rfl
        by_cases hk : topK ≤ cnt + 1
        · rw [if_pos hk]
          simp only [sumTokens, List.map_cons, List.map_nil, List.sum_cons,
            List.sum_nil, hmk]
          omega
        · rw [if_neg hk]
          have := ih (cum + r.tokenCount.getD 0) (cnt + 1) (by omega)
          simp only [sumTokens, List.map_cons, List.sum_cons, hmk] at *
          omega

/-- C2: on a non-empty candidate row list, search_filing_chunks always
returns at least one result, headed by the most similar candidate, even
when the token budget is smaller than that candidate's token count;
the running token total stays within the budget unless the single first
result alone exceeds it, and no more than top_k results are returned. -/
theorem search_filing_chunks_first_always (rows : List Row) (maxT topK : Nat)
    (hne : rows ≠ []) (htk : 1 ≤ topK) :
    (searchFilingChunks rows maxT topK ≠ [] ∧
      (searchFilingChunks rows maxT topK).head? = rows.head?.map mkResult ∧
      (searchFilingChunks rows maxT topK).length ≤ topK ∧
      (sumTokens (searchFilingChunks rows maxT topK) ≤ maxT ∨
        (searchFilingChunks rows maxT topK).length = 1)) := by
  obtain ⟨r, rest, rfl⟩ : ∃ a l, rows = a :: l := by
    cases rows with
    | nil => exact absurd rfl hne
    | cons a l => exact ⟨a, l, rfl⟩
  unfold searchFilingChunks accumLoop
  rw [if_neg (by omega)]
  by_cases hk : topK ≤ 0 + 1
  · rw [if_pos hk]
    refine ⟨by simp, by simp, by simp; omega, Or.inr (by simp)⟩
  · rw [if_neg hk]
    refine ⟨by simp, by simp, ?_, ?_⟩
    · have := accumLoop_length maxT topK rest (0 + r.tokenCount.getD 0) (0 + 1)
        (by omega)
      simp only [List.length_cons]
      omega
    · by_cases hbudget : r.tokenCount.getD 0 ≤ maxT
      · left
        have := accumLoop_budget maxT topK rest (0 + r.tokenCount.getD 0) (0 + 1)
          (by omega)
        simp only [sumTokens, List.map_cons, List.sum_cons, mkResult] at *
        omega
      · right
        rw [accumLoop_break maxT topK rest (0 + r.tokenCount.getD 0) (0 + 1)
          (by omega) (by omega)]
        rfl

/-- Witness for C2: one candidate of 100 tokens against a budget of 10
still yields exactly that one result. -/
theorem search_filing_chunks_first_always_witness :
    (searchFilingChunks [sampleRow] 10 8 ≠ [] ∧
      (searchFilingChunks [sampleRow] 10 8).head? =
        [sampleRow].head?.map mkResult ∧
      (searchFilingChunks [sampleRow] 10 8).length ≤ 8 ∧
      (sumTokens (searchFilingChunks [sampleRow] 10 8) ≤ 10 ∨
        (searchFilingChunks [sampleRow] 10 8).length = 1)) :=
  search_filing_chunks_first_always [sampleRow] 10 8 (by decide) (by decide)

end VectorSearch

namespace FilingIndexer

theorem inv_init : Inv init := by
  refine ⟨rfl, ?_, ?_, ?_, fun _ => rfl, fun _ => rfl⟩ <;> simp [init, Phase.isRunning]

theorem inv_step (n : Nat) (s : Sys) (t : TaskId) (h : Inv s) : Inv (step n s t) := by
  obtain ⟨l, pA, pB, mA, mB⟩ := s
  cases t with
  | A =>
      cases pA with
      | start =>
          cases l with
          | false => simp_all [Inv, step, stepTask, Phase.isRunning]
          | true => simp_all [Inv, step, stepTask, Phase.isRunning]
      | running k =>
          cases k with
          | zero => simp_all [Inv, step, stepTask, Phase.isRunning]
          | succ k' => simp_all [Inv, step, stepTask, Phase.isRunning]
      | doneOk => simp_all [Inv, step, stepTask, Phase.isRunning]
      | conflict => simp_all [Inv, step, stepTask, Phase.isRunning]
  | B =>
      cases pB with
      | start =>
          cases l with
          | false => simp_all [Inv, step, stepTask, Phase.isRunning]
          | true => simp_all [Inv, step, stepTask, Phase.isRunning]
      | running k =>
          cases k with
          | zero => simp_all [Inv, step, stepTask, Phase.isRunning]
          | succ k' => simp_all [Inv, step, stepTask, Phase.isRunning]
      | doneOk => simp_all [Inv, step, stepTask, Phase.isRunning]
      | conflict => simp_all [Inv, step, stepTask, Phase.isRunning]

theorem inv_run (n : Nat) (sched : List TaskId) : Inv (run n sched) := by
  suffices hgen : ∀ (sc : List TaskId) (s : Sys), Inv s → Inv (sc.foldl (step n) s) by
    exact hgen sched init inv_init
  intro sc
  induction sc with
  | nil => intro s hs; exact hs
  | cons t rest ih => intro s hs; exact ih (step n s t) (inv_step n s t hs)

/-- C3: under every cooperative interleaving of two
index_company_filings invocations for the same ticker, at most one is
ever inside the pipeline (mutual exclusion), an invocation that
returned the "Indexing already in progress" conflict has performed no
IndexState or passage mutation, and the two can never both conflict —
so whenever they contend, exactly one proceeds. -/
theorem indexing_conflict_no_mutation (n : Nat) (sched : List TaskId) :
    (¬((run n sched).phA.isRunning = true ∧ (run n sched).phB.isRunning = true)) ∧
    ((run n sched).phA = .conflict → (run n sched).mutA = 0) ∧
    ((run n sched).phB = .conflict → (run n sched).mutB = 0) ∧
    ¬((run n sched).phA = .conflict ∧ (run n sched).phB = .conflict) := by
  obtain ⟨h1, h2, h3, h4, h5, h6⟩ := inv_run n sched
  refine ⟨h2, fun hc => (h3 hc).1, fun hc => (h4 hc).1, ?_⟩
  rintro ⟨hcA, hcB⟩
  rcases (h3 hcA).2 with hr | hd
  · rw [hcB] at hr
    simp [Phase.isRunning] at hr
  · rw [hcB] at hd
    cases hd

/-- Witness for C3: schedule A then B with a 1-mutation pipeline — B
conflicts and has mutated nothing, and not both conflict. -/
theorem indexing_conflict_no_mutation_witness :
    (run 1 [TaskId.A, TaskId.B]).phB = .conflict ∧
      (run 1 [TaskId.A, TaskId.B]).mutB = 0 ∧
      ¬((run 1 [TaskId.A, TaskId.B]).phA = .conflict ∧
          (run 1 [TaskId.A, TaskId.B]).phB = .conflict) :=
  ⟨by decide,
    (indexing_conflict_no_mutation 1 [TaskId.A, TaskId.B]).2.2.1 (by decide),
    (indexing_conflict_no_mutation 1 [TaskId.A, TaskId.B]).2.2.2⟩

end FilingIndexer

namespace AiService

theorem traceEvents_append (l1 l2 : List Trace) :
    traceEvents (l1 ++ l2) = traceEvents l1 ++ traceEvents l2 := by
  simp [traceEvents, List.filterMap_append]

theorem countDone_append (e1 e2 : List Event) :
    countDone (e1 ++ e2) = countDone e1 + countDone e2 := by
  simp [countDone, List.filter_append]

theorem traceEvents_map_ev (evs : List Event) :
    traceEvents (evs.map Trace.ev) = evs := by
  induction evs with
  | nil => rfl
  | cons e rest ih => simp [traceEvents, List.filterMap_cons] at *; exact ih

theorem processStream_no_done (chunks : List StreamChunk) :
    countDone (processStream chunks).events = 0 := by
  suffices hgen : ∀ (cs : List StreamChunk) (st : StreamState),
      countDone st.events = 0 → countDone (cs.foldl processChunk st).events = 0 by
    exact hgen chunks ⟨[], [], none⟩ rfl
  intro cs
  induction cs with
  | nil => intro st h; exact h
  | cons c rest ih =>
      intro st h
      refine ih (processChunk st c) ?_
      unfold processChunk
      by_cases hc : c.content = []
      · rw [if_pos hc]
        exact h
      · rw [if_neg hc]
        rw [countDone_append, h]
        rfl

theorem runTools_no_done (pj : Txt → Option (List (Txt × Txt)))
    (ex : Txt → List (Txt × Txt) → Except Txt Txt) :
    ∀ (tcs : List TCAcc), countDone (traceEvents (runTools pj ex tcs)) = 0 := by
  intro tcs
  induction tcs with
  | nil => rfl
  | cons tc rest ih =>
      unfold runTools
      simp only [traceEvents, List.filterMap_cons]
      simpa [traceEvents, countDone] using ih

theorem finalTokens_no_done (cs : List StreamChunk) :
    countDone (traceEvents (finalTokens cs)) = 0 := by
  induction cs with
  | nil => rfl
  | cons c rest ih =>
      unfold finalTokens at *
      by_cases hc : c.content = []
      · simpa [List.filterMap_cons, hc] using ih
      · simpa [List.filterMap_cons, hc, traceEvents, countDone] using ih

theorem loopGo_all_tools (oracle : Nat → List StreamChunk)
    (pj : Txt → Option (List (Txt × Txt)))
    (ex : Txt → List (Txt × Txt) → Except Txt Txt) :
    ∀ (r ci : Nat) (tr : List Trace),
      (∀ j, j < r → requestsTools (oracle (ci + j))) →
      ∃ mid,
        loopGo oracle pj ex r ci tr =
          ⟨tr ++ mid ++ finalTokens (oracle (ci + r)) ++ [Trace.ev .done],
            ci + r, true⟩ ∧
        countDone (traceEvents mid) = 0 := by
  intro r
  induction r with
  | zero =>
      intro ci tr h
      refine ⟨[], ?_, rfl⟩
      simp [loopGo]
  | succ r ih =>
      intro ci tr h
      have h0 := h 0 (by omega)
      rw [Nat.add_zero] at h0
      unfold loopGo
      rw [if_neg (by push_neg; exact ⟨h0.1, h0.2⟩)]
      obtain ⟨mid', heq, hdone⟩ := ih (ci + 1)
        (tr ++ (processStream (oracle ci)).events.map Trace.ev ++
          runTools pj ex (sortById ((processStream (oracle ci)).acc.map (·.2))))
        (fun j hj => by
          have hx := h (j + 1) (by omega)
          rw [show ci + (j + 1) = ci + 1 + j from by omega] at hx
          exact hx)
      refine ⟨(processStream (oracle ci)).events.map Trace.ev ++
        runTools pj ex (sortById ((processStream (oracle ci)).acc.map (·.2))) ++
        mid', ?_, ?_⟩
      · rw [heq]
        simp only [LoopOut.mk.injEq]
        refine ⟨?_, by omega, trivial⟩
        rw [show ci + (r + 1) = ci + 1 + r from by omega]
        simp only [List.append_assoc]
      · rw [traceEvents_append, traceEvents_append, countDone_append,
          countDone_append, traceEvents_map_ev, processStream_no_done,
          runTools_no_done, hdone]

/-- C4: when the completion stream requests tool calls on every one of
the max_iterations rounds, the agentic loop makes exactly
max_iterations tool-enabled completion calls, then exactly one final
tool-free completion call, streams that final call's tokens, and
terminates with a single done event at the very end — it never loops
beyond N tool rounds plus the one final call. -/
theorem agent_loop_exhaustion_terminates (oracle : Nat → List StreamChunk)
    (pj : Txt → Option (List (Txt × Txt)))
    (ex : Txt → List (Txt × Txt) → Except Txt Txt) (maxIter : Nat)
    (h : ∀ j, j < maxIter → requestsTools (oracle j)) :
    ∃ mid,
      ((agentLoop oracle pj ex maxIter).trace =
          mid ++ finalTokens (oracle maxIter) ++ [Trace.ev .done] ∧
        countDone (traceEvents mid) = 0 ∧
        countDone (traceEvents (agentLoop oracle pj ex maxIter).trace) = 1 ∧
        (agentLoop oracle pj ex maxIter).toolRounds = maxIter ∧
        (agentLoop oracle pj ex maxIter).finalCall = true) := by
  obtain ⟨mid, heq, hdone⟩ :=
    loopGo_all_tools oracle pj ex maxIter 0 [] (fun j hj => by
      simpa using h j hj)
  have htrace : (agentLoop oracle pj ex maxIter).trace =
      mid ++ finalTokens (oracle maxIter) ++ [Trace.ev .done] := by
    unfold agentLoop
    rw [heq]
    simp
  refine ⟨mid, htrace, hdone, ?_, ?_, ?_⟩
  · rw [htrace, traceEvents_append, traceEvents_append, countDone_append,
      countDone_append, hdone, finalTokens_no_done]
    rfl
  · unfold agentLoop
    rw [heq]
    simp
  · unfold agentLoop
    rw [heq]

/-- Witness for C4: an oracle that requests a tool call on both of the 2
allowed rounds and then answers. -/
theorem agent_loop_exhaustion_terminates_witness :
    ∃ mid,
      ((agentLoop c4Oracle sampleParse sampleExec 2).trace =
          mid ++ finalTokens (c4Oracle 2) ++ [Trace.ev .done] ∧
        countDone (traceEvents mid) = 0 ∧
        countDone (traceEvents (agentLoop c4Oracle sampleParse sampleExec 2).trace) = 1 ∧
        (agentLoop c4Oracle sampleParse sampleExec 2).toolRounds = 2 ∧
        (agentLoop c4Oracle sampleParse sampleExec 2).finalCall = true) :=
  agent_loop_exhaustion_terminates c4Oracle sampleParse sampleExec 2 (by
    intro j hj
    have hj2 : j = 0 ∨ j = 1 := by omega
    rcases hj2 with rfl | rfl <;> exact ⟨by decide, by decide⟩)

theorem runTools_eq_blocks (pj : Txt → Option (List (Txt × Txt)))
    (ex : Txt → List (Txt × Txt) → Except Txt Txt) :
    ∀ (tcs : List TCAcc),
      runTools pj ex tcs = (tcs.map (toolBlock pj ex)).flatten := by
  intro tcs
  induction tcs with
  | nil => rfl
  | cons tc rest ih =>
      unfold runTools toolBlock
      simp only [List.map_cons, List.flatten_cons, ih]
      rfl

theorem callNames_blocks (pj : Txt → Option (List (Txt × Txt)))
    (ex : Txt → List (Txt × Txt) → Except Txt Txt) :
    ∀ (tcs : List TCAcc),
      callNames ((tcs.map (toolBlock pj ex)).flatten) = tcs.map (·.name) := by
  intro tcs
  induction tcs with
  | nil => rfl
  | cons tc rest ih =>
      simp only [List.map_cons, List.flatten_cons, toolBlock, callNames,
        List.filterMap_append, List.filterMap_cons] at *
      simp [ih]

/-- C9 (amended): a tool-requesting iteration of the agentic loop appends
exactly the per-call blocks of the reassembled calls sorted by
tool-call id (a stable sort of the values in first-seen index order)
— each block is the status event followed directly by that call's
executor invocation — so the executor runs the calls sequentially in
id order, and an executor failure is substituted by the
"Error executing ..." string rather than aborting the turn. -/
theorem agent_loop_tools_sorted_by_id (oracle : Nat → List StreamChunk)
    (pj : Txt → Option (List (Txt × Txt)))
    (ex : Txt → List (Txt × Txt) → Except Txt Txt) (maxIter ci : Nat)
    (tr : List Trace)
    (hfr : (processStream (oracle ci)).finishReason = some (ofStr "tool_calls"))
    (hacc : (processStream (oracle ci)).acc ≠ []) :
    (loopGo oracle pj ex (maxIter + 1) ci tr =
        loopGo oracle pj ex maxIter (ci + 1)
          (tr ++ (processStream (oracle ci)).events.map Trace.ev ++
            ((sortById ((processStream (oracle ci)).acc.map (·.2))).map
                (toolBlock pj ex)).flatten) ∧
      callNames (((sortById ((processStream (oracle ci)).acc.map (·.2))).map
            (toolBlock pj ex)).flatten) =
        (sortById ((processStream (oracle ci)).acc.map (·.2))).map (·.name) ∧
      ∀ (tc : TCAcc) (e : Txt),
        ex tc.name ((pj tc.args).getD []) = Except.error e →
        callResult ex tc.name ((pj tc.args).getD []) = errorText tc.name e) := by
  refine ⟨?_, callNames_blocks pj ex _, ?_⟩
  · conv_lhs => unfold loopGo
    rw [if_neg (by push_neg; exact ⟨hfr, hacc⟩), runTools_eq_blocks]
  · intro tc e he
    unfold callResult
    rw [he]

/-- Witness for the amended C9: on the stream whose ids are out of index
order, the executed names follow the id-sorted order. -/
theorem agent_loop_tools_sorted_by_id_witness :
    callNames (((sortById ((processStream (c9Oracle 0)).acc.map (·.2))).map
          (toolBlock sampleParse sampleExec)).flatten) =
      (sortById ((processStream (c9Oracle 0)).acc.map (·.2))).map (·.name) :=
  (agent_loop_tools_sorted_by_id c9Oracle sampleParse sampleExec 7 0 []
    (by decide) (by decide)).2.1

/-- C9 counterexample: the stream delivers index 0 with id "b" (name
alpha) and index 1 with id "a" (name beta); the loop executes beta
before alpha — the id-sorted order, not the order of the stream's call
indices as the claim states. -/
theorem tool_calls_index_order_counterexample :
    (callNames (agentLoop c9Oracle sampleParse sampleExec 8).trace =
        [ofStr "beta", ofStr "alpha"] ∧
      (processStream c9Stream).acc.map (fun p => p.2.name) =
        [ofStr "alpha", ofStr "beta"] ∧
      callNames (agentLoop c9Oracle sampleParse sampleExec 8).trace ≠
        (processStream c9Stream).acc.map (fun p => p.2.name)) := by
  decide

end AiService

namespace FilingParser

theorem alookup_upsert (k : Txt) (v : ItemMatch) (code : Txt) :
    ∀ (l : List (Txt × ItemMatch)),
      alookup code (upsert k v l) =
        if k = code then some v else alookup code l := by
  intro l
  induction l with
  | nil => simp [upsert, alookup]
  | cons p rest ih =>
      obtain ⟨k', v'⟩ := p
      unfold upsert
      by_cases h1 : k' = k
      · subst h1
        rw [if_pos rfl]
        by_cases h2 : k' = code
        · simp [alookup, h2]
        · simp [alookup, h2]
      · rw [if_neg h1]
        by_cases h2 : k' = code
        · have hk : ¬ (k = code) := fun hc => h1 (by rw [hc, h2])
          simp [alookup, h2, hk]
        · simp [alookup, h2, ih]

theorem getLast?_oelse (a : α) (l : List α) :
    (a :: l).getLast? = oelse l.getLast? (some a) := by
  cases l with
  | nil => rfl
  | cons x xs =>
      rw [List.getLast?_cons_cons]
      obtain ⟨y, hy⟩ : ∃ y, (x :: xs).getLast? = some y := by
        cases h : (x :: xs).getLast? with
        | some y => exact ⟨y, rfl⟩
        | none =>
            have := List.getLast?_isSome (l := x :: xs)
            rw [h] at this
            simp at this
      rw [hy]
      rfl

theorem alookup_dedup_foldl (code : Txt) :
    ∀ (ms : List ItemMatch) (acc : List (Txt × ItemMatch)),
      alookup code (ms.foldl (fun a m => upsert m.code m a) acc) =
        oelse ((ms.filter (fun m => m.code = code)).getLast?)
          (alookup code acc) := by
  intro ms
  induction ms with
  | nil => intro acc; simp [oelse]
  | cons m rest ih =>
      intro acc
      simp only [List.foldl_cons, List.filter_cons]
      by_cases hc : m.code = code
      · rw [ih (upsert m.code m acc), alookup_upsert, if_pos hc,
          if_pos (show decide (m.code = code) = true from by simp [hc]),
          getLast?_oelse]
        cases h : (rest.filter (fun m => decide (m.code = code))).getLast? <;>
          simp [oelse]
      · rw [ih (upsert m.code m acc), alookup_upsert, if_neg hc,
          if_neg (show ¬ decide (m.code = code) = true from by simp [hc])]

theorem dedupLast_keeps_last (ms : List ItemMatch) (code : Txt) :
    alookup code (dedupLast ms) =
      (ms.filter (fun m => m.code = code)).getLast? := by
  unfold dedupLast
  rw [alookup_dedup_foldl]
  cases h : (ms.filter (fun m => m.code = code)).getLast? <;>
    simp [oelse, alookup]

set_option maxRecDepth 10000 in
set_option maxHeartbeats 4000000 in
/-- C6: (general part) for every item code, the parser's dedup keeps
exactly the LAST header match with that code as the section start;
(concrete part) on the spec's TOC example — "Item 1A" once in a
contents line (match at offsets 0-8) and once as the real header
(match at 22-31), then "Item 7" (match at 92-100) — _detect_sections
with the two-entry map produces exactly two sections whose bodies are
the text slices that start after the SECOND "Item 1A" occurrence. -/
theorem detect_sections_keeps_last_occurrence :
    ((∀ (text code : Txt),
        alookup code (dedupLast (findMatches text)) =
          ((findMatches text).filter (fun m => m.code = code)).getLast?) ∧
      (findMatches c6Text).map (fun m => (m.start, m.stop, m.code)) =
        [(0, 8, ofStr "1A"), (22, 31, ofStr "1A"), (92, 100, ofStr "7")] ∧
      detectSections c6Text (ofStr "10-K") c6Map [] = c6Sections ∧
      c6Body1 = stripTxt ((c6Text.take 92).drop 31) ∧
      c6Body2 = stripTxt (c6Text.drop 100)) :=
  ⟨fun text code => dedupLast_keeps_last (findMatches text) code,
    by decide, by decide, by decide, by decide⟩

/-- C10: when fewer than two sections are detected, parse_filing_html
returns a single "Full Document" fallback section whose text is the
UNMODIFIED clean text — placeholder removal happens only in the
sectioned branch, so every retained table's literal
[[TABLE_PLACEHOLDER_idx]] token still occurs in the fallback text —
while those same tables also appear rendered in the section's tables
list. -/
theorem parse_filing_fallback_keeps_placeholders
    (cleanText filingType : Txt) (sectionMap : List (Txt × Txt × Txt))
    (tablesMd : List (Nat × Txt))
    (h : (detectSections cleanText filingType sectionMap tablesMd).length < 2) :
    (parseFilingCore cleanText filingType sectionMap tablesMd =
        ⟨filingType,
          [⟨ofStr "full_document", ofStr "Full Document", ofStr "general",
            cleanText, tablesMd.map (·.2), 0⟩],
          cleanText, ofStr "fallback"⟩ ∧
      ∀ p ∈ tablesMd,
        containsSub cleanText (placeholderTxt p.1) = true →
        ∃ s, (parseFilingCore cleanText filingType sectionMap tablesMd).sections
              = [s] ∧
          containsSub s.textContent (placeholderTxt p.1) = true ∧
          p.2 ∈ s.tables) := by
  have heq : parseFilingCore cleanText filingType sectionMap tablesMd =
      ⟨filingType,
        [⟨ofStr "full_document", ofStr "Full Document", ofStr "general",
          cleanText, tablesMd.map (·.2), 0⟩],
        cleanText, ofStr "fallback"⟩ := by
    unfold parseFilingCore
    rw [if_neg (by omega)]
  refine ⟨heq, ?_⟩
  intro p hp hocc
  exact ⟨⟨ofStr "full_document", ofStr "Full Document", ofStr "general",
    cleanText, tablesMd.map (·.2), 0⟩, by rw [heq], hocc,
    List.mem_map_of_mem _ hp⟩

/-- Witness for C10 on a clean text carrying placeholder 0 and no item
headers. -/
theorem parse_filing_fallback_keeps_placeholders_witness :
    (containsSub c10Clean (placeholderTxt 0) = true ∧
      ∃ s, (parseFilingCore c10Clean (ofStr "10-K") c6Map c10Tables).sections
            = [s] ∧
        containsSub s.textContent (placeholderTxt 0) = true ∧
        ofStr "| col a | col b |" ∈ s.tables) := by
  have h := parse_filing_fallback_keeps_placeholders c10Clean (ofStr "10-K")
    c6Map c10Tables (by decide)
  exact ⟨by decide, h.2 (0, ofStr "| col a | col b |") (by decide) (by decide)⟩

end FilingParser
